import Mathlib

/-!
Verification of the detection-evaluation engine of this repository
(`src/analysis/evaluate_metrics.py`).

The Python source is shallowly embedded below.  Python numbers are modelled
by `ℚ` (the script manipulates ints and exact small fractions; float division
`a / b` of two machine ints is modelled by exact rational division, and the
script's guards ensure no division by zero is ever executed).  Python dicts
keyed by strings are modelled by insertion-ordered association lists with the
dict lookup/assignment operations (`dictGet` / `dictSet`); `defaultdict`
accesses that create a key are modelled by `bumpStats`, which always writes
the key back.  Iteration over a Python `set` of class names (whose order is
unspecified and which only drives per-class independent updates) is modelled
by iterating over a duplicate-free list of the same class names.
-/

namespace EvalMetrics

/-- Absolute-pixel bounding box `[xmin, ymin, xmax, ymax]`, as destructured by
`calculate_iou`.  Coordinates are modelled in `ℚ` (in the script they are
Python ints produced by `int(...)` truncation). -/
structure Box where
  xmin : ℚ
  ymin : ℚ
  xmax : ℚ
  ymax : ℚ
deriving DecidableEq, Repr

/-- One ground-truth object of an annotation image: raw class code (e.g.
`"D00"`) plus its absolute-pixel box, as produced by `parse_xml_annotation`. -/
structure GtObject where
  cls : String
  bbox : Box
deriving DecidableEq, Repr

/-- One annotation image: `{'width': w, 'height': h, 'objects': [...]}`. -/
structure GtData where
  width : ℕ
  height : ℕ
  objects : List GtObject
deriving DecidableEq, Repr

/-- One raw model detection `{'label': ..., 'box_2d': ...}`; either field may
be absent in the JSON (`dict.get` returning `None`), hence `Option`. -/
structure Detection where
  label : Option String
  box_2d : Option (List ℚ)
deriving DecidableEq, Repr

/-- One prediction record `{'width': w, 'height': h, 'detections': [...]}` as
assembled by `main` (width/height are copied from the ground truth and unused
by the evaluator, which reads dimensions from the ground-truth record). -/
structure PredData where
  width : ℕ
  height : ℕ
  detections : List Detection
deriving DecidableEq, Repr

/-- Python `dict.get(k)`: first (unique, for a dict) binding of `k`. -/
def dictGet {α : Type} : List (String × α) → String → Option α
  | [], _ => none
  | (k2, v) :: rest, k => if k2 = k then some v else dictGet rest k

/-- Python `d[k] = v`: overwrite the existing binding in place, else append. -/
def dictSet {α : Type} : List (String × α) → String → α → List (String × α)
  | [], k, v => [(k, v)]
  | (k2, v2) :: rest, k, v =>
      if k2 = k then (k, v) :: rest else (k2, v2) :: dictSet rest k v

/-- `CLASS_MAPPING`: raw XML class code → canonical model class name. -/
def CLASS_MAPPING : List (String × String) :=
  [("D00", "longitudinal_crack"),
   ("D10", "transverse_crack"),
   ("D20", "alligator_crack"),
   ("D40", "pothole"),
   ("Repair", "repair")]

/-- `LABEL_NORMALIZATION`: model label → canonical label, where the ambiguous
legacy label `"crack"` maps to `None` (Python) and is skipped. -/
def LABEL_NORMALIZATION : List (String × Option String) :=
  [("crack", none),
   ("longitudinal_crack", some "longitudinal_crack"),
   ("transverse_crack", some "transverse_crack"),
   ("alligator_crack", some "alligator_crack"),
   ("pothole", some "pothole"),
   ("repair", some "repair")]

/-- Python's `int(x)` builtin on a rational value: truncation toward zero,
i.e. the T-division of the numerator by the (positive) denominator. -/
def pyInt (q : ℚ) : ℤ := Int.tdiv q.num q.den

/-- `calculate_iou(box1, box2)`: intersection rectangle via coordinate-wise
max/min; `0.0` if the intersection rectangle is inverted; otherwise
`inter_area / union_area`, guarded by `union_area > 0` (else `0.0`). -/
def calculate_iou (box1 box2 : Box) : ℚ :=
  let inter_xmin := max box1.xmin box2.xmin
  let inter_ymin := max box1.ymin box2.ymin
  let inter_xmax := min box1.xmax box2.xmax
  let inter_ymax := min box1.ymax box2.ymax
  if inter_xmax < inter_xmin ∨ inter_ymax < inter_ymin then 0
  else
    let inter_area := (inter_xmax - inter_xmin) * (inter_ymax - inter_ymin)
    let box1_area := (box1.xmax - box1.xmin) * (box1.ymax - box1.ymin)
    let box2_area := (box2.xmax - box2.xmin) * (box2.ymax - box2.ymin)
    let union_area := box1_area + box2_area - inter_area
    if union_area > 0 then inter_area / union_area else 0

/-- `convert_relative_to_absolute(box_2d, img_width, img_height)`: the
relative box `[ymin_rel, xmin_rel, ymax_rel, xmax_rel]` is scaled by the
image dimensions and truncated with `int(...)`, returning
`[xmin, ymin, xmax, ymax]` (note the axis reordering).  Python raises on a
wrong-arity list (call sites guard `len == 4`), modelled by `none`. -/
def convert_relative_to_absolute (box_2d : List ℚ) (img_width img_height : ℕ) :
    Option Box :=
  match box_2d with
  | [ymin_rel, xmin_rel, ymax_rel, xmax_rel] =>
      some ⟨(pyInt (xmin_rel * img_width) : ℤ),
            (pyInt (ymin_rel * img_height) : ℤ),
            (pyInt (xmax_rel * img_width) : ℤ),
            (pyInt (ymax_rel * img_height) : ℤ)⟩
  | _ => none

/-- The per-detection branch of the `pred_by_class` grouping loop: apply
`LABEL_NORMALIZATION` when the label is a key of it (skipping the detection
when the normalized label is `None`), then require a truthy label, a truthy
`box_2d` of length 4, and convert the box to absolute pixels.  Returns the
canonical-or-raw surviving label together with the absolute box, or `none`
when the detection is skipped. -/
def resolveDetection (img_width img_height : ℕ) (d : Detection) :
    Option (String × Box) :=
  let pred_class : Option String :=
    match d.label with
    | none => none
    | some s =>
        match dictGet LABEL_NORMALIZATION s with
        | some none => none
        | some (some s2) => some s2
        | none => some s
  match pred_class, d.box_2d with
  | some c, some rel =>
      if c ≠ "" ∧ rel ≠ [] ∧ rel.length = 4 then
        match convert_relative_to_absolute rel img_width img_height with
        | some b => some (c, b)
        | none => none
      else none
  | _, _ => none

/-- `gt_by_class[c]`: boxes of the ground-truth objects whose raw code maps,
via `CLASS_MAPPING`, to the (truthy) canonical class `c`, in source order. -/
def gtBoxesOf (objects : List GtObject) (c : String) : List Box :=
  objects.filterMap fun o =>
    if dictGet CLASS_MAPPING o.cls = some c then some o.bbox else none

/-- `pred_by_class[c]`: absolute boxes of the resolved detections whose
surviving label is `c`, in source order. -/
def predBoxesOf (img_width img_height : ℕ) (dets : List Detection)
    (c : String) : List Box :=
  (dets.filterMap (resolveDetection img_width img_height)).filterMap
    fun e => if e.1 = c then some e.2 else none

/-- Per-(image, class) matching state: the class's true-positive and
false-positive counters and the set of claimed ground-truth indices
(`matched_gt`, kept as an insertion-ordered duplicate-free list). -/
structure MatchState where
  tp : ℕ
  fp : ℕ
  matched : List ℕ
deriving DecidableEq, Repr

/-- Python `set.add` on the claimed-index set. -/
def setAdd (s : List ℕ) (i : ℕ) : List ℕ := if i ∈ s then s else s ++ [i]

/-- The inner loop `for gt_idx, gt_box in enumerate(gt_boxes)` of
`evaluate_detections`: skip claimed indices, compute the IoU, and keep the
strictly best `(best_iou, best_gt_idx)` seen so far (so ties keep the first
occurrence).  `i` is the index of the head of the remaining list. -/
def bestLoop (pred_box : Box) (matched : List ℕ) :
    List Box → ℕ → ℚ × ℤ → ℚ × ℤ
  | [], _, best => best
  | g :: gs, i, best =>
      if i ∈ matched then bestLoop pred_box matched gs (i + 1) best
      else
        let iou := calculate_iou pred_box g
        bestLoop pred_box matched gs (i + 1)
          (if best.1 < iou then (iou, (i : ℤ)) else best)

/-- The full scan for one predicted box, starting from
`best_iou = 0, best_gt_idx = -1`. -/
def bestMatch (pred_box : Box) (gt_boxes : List Box) (matched : List ℕ) :
    ℚ × ℤ :=
  bestLoop pred_box matched gt_boxes 0 (0, -1)

/-- Processing of one predicted box: a true positive claiming `best_gt_idx`
when `best_iou >= iou_threshold and best_gt_idx >= 0`, else a false
positive. -/
def stepPred (iou_threshold : ℚ) (gt_boxes : List Box) (st : MatchState)
    (pred_box : Box) : MatchState :=
  let best := bestMatch pred_box gt_boxes st.matched
  if iou_threshold ≤ best.1 ∧ 0 ≤ best.2 then
    { st with tp := st.tp + 1, matched := setAdd st.matched best.2.toNat }
  else
    { st with fp := st.fp + 1 }

/-- The per-(image, class) matching loop over the predicted boxes, in source
order, from fresh counters and an empty claimed set. -/
def matchClass (iou_threshold : ℚ) (gt_boxes pred_boxes : List Box) :
    MatchState :=
  pred_boxes.foldl (stepPred iou_threshold gt_boxes) ⟨0, 0, []⟩

/-- One class's accumulated counters in `class_stats`.  (The source also
carries a `matched_pairs` list, which is never appended to and never read;
it is omitted.) -/
structure Stats where
  tp : ℕ
  fp : ℕ
  fn : ℕ
deriving DecidableEq, Repr

/-- The `class_stats` defaultdict: insertion-ordered association list. -/
abbrev StatsMap := List (String × Stats)

/-- Reading `class_stats[c]`: the stored entry, or the zero-initialized
default. -/
def getStats (m : StatsMap) (c : String) : Stats :=
  (dictGet m c).getD ⟨0, 0, 0⟩

/-- A read-modify-write of `class_stats[c]` (also creates the key when
absent, as any defaultdict access does). -/
def bumpStats (m : StatsMap) (c : String) (f : Stats → Stats) : StatsMap :=
  dictSet m c (f (getStats m c))

/-- Componentwise sum of counter deltas. -/
def addStats (s d : Stats) : Stats := ⟨s.tp + d.tp, s.fp + d.fp, s.fn + d.fn⟩

/-- The net counter delta contributed by one (image, class) matching pass:
`tp` and `fp` from the prediction loop, plus
`fn += len(gt_boxes) - len(matched_gt)`. -/
def classDelta (iou_threshold : ℚ) (g : GtData) (dets : List Detection)
    (c : String) : Stats :=
  let gt_boxes := gtBoxesOf g.objects c
  let pred_boxes := predBoxesOf g.width g.height dets c
  let r := matchClass iou_threshold gt_boxes pred_boxes
  ⟨r.tp, r.fp, gt_boxes.length - r.matched.length⟩

/-- The body of `for class_name in set(...)`: all the increments this class
receives in this image, folded into `class_stats` in one write (the source
performs them one at a time on the same key; every class in the union is
written, even when all deltas are zero, matching the defaultdict touch by
the `fn` line). -/
def applyClass (iou_threshold : ℚ) (g : GtData) (dets : List Detection)
    (m : StatsMap) (c : String) : StatsMap :=
  bumpStats m c fun s => addStats s (classDelta iou_threshold g dets c)

/-- The class names appearing in `gt_by_class` or `pred_by_class` for this
image, each once.  (The source iterates the Python set of these names in
unspecified order; since distinct classes update distinct keys, any
duplicate-free order yields the same `class_stats`.) -/
def imageClasses (g : GtData) (dets : List Detection) : List String :=
  ((g.objects.filterMap fun o => dictGet CLASS_MAPPING o.cls) ++
    ((dets.filterMap (resolveDetection g.width g.height)).map Prod.fst)).dedup

/-- The no-prediction branch: every ground-truth object whose raw class maps
to a canonical class becomes a false negative of that class. -/
def noPredUpdate (m : StatsMap) (g : GtData) : StatsMap :=
  g.objects.foldl
    (fun m2 o =>
      match dictGet CLASS_MAPPING o.cls with
      | some c => bumpStats m2 c fun s => { s with fn := s.fn + 1 }
      | none => m2)
    m

/-- The body of the per-image loop of `evaluate_detections`: take the
no-prediction branch when there is no prediction record or its `detections`
list is empty (falsy); otherwise run the per-class matching over the union
of the classes present on either side. -/
def processImage (iou_threshold : ℚ) (m : StatsMap) (g : GtData)
    (pred_data : Option PredData) : StatsMap :=
  match pred_data with
  | none => noPredUpdate m g
  | some p =>
      if p.detections = [] then noPredUpdate m g
      else (imageClasses g p.detections).foldl
        (applyClass iou_threshold g p.detections) m

/-- The accumulation phase of `evaluate_detections`: fold the per-image step
over the ground-truth corpus (dict insertion order), looking each image's
prediction record up by image id. -/
def evalLoop (iou_threshold : ℚ) (ground_truths : List (String × GtData))
    (predictions : List (String × PredData)) : StatsMap :=
  ground_truths.foldl
    (fun m e => processImage iou_threshold m e.2 (dictGet predictions e.1)) []

/-- One value of the `results` dict: per-class entries carry the counters
(`counts = some s`) plus `precision`, `recall`, `f1`; the `macro_average`
entry carries only the three ratios (`counts = none`). -/
structure Metrics where
  counts : Option Stats
  precisionScore : ℚ
  recallScore : ℚ
  f1Score : ℚ
deriving DecidableEq, Repr

/-- Per-class metric computation of `evaluate_detections` (denominator
guards: a ratio is `0.0` when its denominator is not positive). -/
def metricsOf (s : Stats) : Metrics :=
  let precision : ℚ := if s.tp + s.fp > 0 then (s.tp : ℚ) / ((s.tp : ℚ) + (s.fp : ℚ)) else 0
  let recl : ℚ := if s.tp + s.fn > 0 then (s.tp : ℚ) / ((s.tp : ℚ) + (s.fn : ℚ)) else 0
  let f1 : ℚ := if precision + recl > 0 then 2 * precision * recl / (precision + recl) else 0
  ⟨some s, precision, recl, f1⟩

/-- The `results` dict before the macro-average entry: one entry per
`class_stats` key, in insertion order. -/
def classResults (m : StatsMap) : List (String × Metrics) :=
  m.map fun e => (e.1, metricsOf e.2)

/-- Appending the `macro_average` entry: arithmetic means of the per-class
ratios over all entries of `results`, added only when `results` is
non-empty. -/
def withMacroAvg (results : List (String × Metrics)) : List (String × Metrics) :=
  if results = [] then results
  else
    let n : ℚ := results.length
    let avg_precision := (results.map fun e => e.2.precisionScore).sum / n
    let avg_recall := (results.map fun e => e.2.recallScore).sum / n
    let avg_f1 := (results.map fun e => e.2.f1Score).sum / n
    dictSet results "macro_average" ⟨none, avg_precision, avg_recall, avg_f1⟩

/-- `evaluate_detections(ground_truths, predictions, iou_threshold)` (the
script always calls it with the default threshold `0.5`): accumulate the
per-class counters over the corpus, then derive per-class metrics and the
macro average. -/
def evaluate_detections (ground_truths : List (String × GtData))
    (predictions : List (String × PredData)) (iou_threshold : ℚ) :
    List (String × Metrics) :=
  withMacroAvg (classResults (evalLoop iou_threshold ground_truths predictions))

/-- The filter `main` applies when loading the ground-truth corpus
(`if gt_data and gt_data['objects']`): an image is kept iff its parsed
raw object list is non-empty. -/
def mainKeepsImage (g : GtData) : Bool := !g.objects.isEmpty

/-! ### Dictionary lemmas -/

theorem dictGet_dictSet {α : Type} (m : List (String × α)) (c : String)
    (v : α) (c' : String) :
    dictGet (dictSet m c v) c' = if c = c' then some v else dictGet m c' := by
  induction m with
  | nil =>
      by_cases h : c = c' <;> simp [dictSet, dictGet, h]
  | cons e rest ih =>
      obtain ⟨k2, v2⟩ := e
      by_cases hk : k2 = c
      · subst hk
        by_cases h : k2 = c' <;> simp [dictSet, dictGet, h]
      · by_cases h : k2 = c'
        · subst h
          have : ¬ c = k2 := fun hc => hk hc.symm
          simp [dictSet, dictGet, hk, this]
        · simp [dictSet, dictGet, hk, h, ih]

theorem getStats_bumpStats (m : StatsMap) (c : String) (f : Stats → Stats)
    (c' : String) :
    getStats (bumpStats m c f) c' =
      if c = c' then f (getStats m c) else getStats m c' := by
  by_cases h : c = c' <;>
    simp [bumpStats, getStats, dictGet_dictSet, h]

theorem dictSet_keys {α : Type} (m : List (String × α)) (c : String) (v : α) :
    (dictSet m c v).map Prod.fst =
      if c ∈ m.map Prod.fst then m.map Prod.fst else m.map Prod.fst ++ [c] := by
  induction m with
  | nil => simp [dictSet]
  | cons e rest ih =>
      obtain ⟨k2, v2⟩ := e
      by_cases hk : k2 = c
      · subst hk
        simp [dictSet]
      · have : ¬ c = k2 := fun hc => hk hc.symm
        by_cases hm : c ∈ rest.map Prod.fst <;>
          simp [dictSet, hk, hm, this, ih]

theorem dictGet_eq_none {α : Type} (m : List (String × α)) (c : String)
    (h : c ∉ m.map Prod.fst) : dictGet m c = none := by
  induction m with
  | nil => rfl
  | cons e rest ih =>
      obtain ⟨k2, v2⟩ := e
      simp only [List.map_cons, List.mem_cons] at h
      push_neg at h
      have : k2 ≠ c := fun hk => h.1 hk.symm
      simp [dictGet, this, ih h.2]

theorem dictGet_mem {α : Type} (m : List (String × α)) (c : String) (v : α)
    (h : dictGet m c = some v) : (c, v) ∈ m := by
  induction m with
  | nil => simp [dictGet] at h
  | cons e rest ih =>
      obtain ⟨k2, v2⟩ := e
      by_cases hk : k2 = c
      · subst hk
        simp [dictGet] at h
        simp [h]
      · simp only [dictGet, hk, if_false] at h
        exact List.mem_cons_of_mem _ (ih h)

theorem mem_dictGet {α : Type} (m : List (String × α)) (c : String) (v : α)
    (hnd : (m.map Prod.fst).Nodup) (h : (c, v) ∈ m) : dictGet m c = some v := by
  induction m with
  | nil => simp at h
  | cons e rest ih =>
      obtain ⟨k2, v2⟩ := e
      simp only [List.map_cons, List.nodup_cons] at hnd
      rcases List.mem_cons.mp h with h1 | h1
      · cases h1
        simp [dictGet]
      · have hk : k2 ≠ c := by
          intro hk
          subst hk
          exact hnd.1 (List.mem_map_of_mem Prod.fst h1)
        simp [dictGet, hk, ih hnd.2 h1]

/-! ### Lemmas about the best-match scan -/

theorem bestLoop_mono (p : Box) (matched : List ℕ) (gs : List Box) (i : ℕ)
    (b : ℚ × ℤ) : b.1 ≤ (bestLoop p matched gs i b).1 := by
  induction gs generalizing i b with
  | nil => simp [bestLoop]
  | cons g rest ih =>
      by_cases hm : i ∈ matched
      · simpa [bestLoop, hm] using ih (i + 1) b
      · simp only [bestLoop, hm, if_false]
        by_cases hlt : b.1 < calculate_iou p g
        · exact le_trans (le_of_lt hlt) (by simpa [hlt] using ih (i + 1) (calculate_iou p g, (i : ℤ)))
        · simpa [hlt] using ih (i + 1) b

theorem bestLoop_strict (p : Box) (matched : List ℕ) (gs : List Box) (i : ℕ)
    (b : ℚ × ℤ) :
    bestLoop p matched gs i b = b ∨ b.1 < (bestLoop p matched gs i b).1 := by
  induction gs generalizing i b with
  | nil => left; rfl
  | cons g rest ih =>
      by_cases hm : i ∈ matched
      · simpa [bestLoop, hm] using ih (i + 1) b
      · simp only [bestLoop, hm, if_false]
        by_cases hlt : b.1 < calculate_iou p g
        · right
          simp only [hlt, if_true]
          calc b.1 < calculate_iou p g := hlt
            _ = ((calculate_iou p g, (i : ℤ)) : ℚ × ℤ).1 := rfl
            _ ≤ _ := bestLoop_mono p matched rest (i + 1) _
        · simpa [hlt] using ih (i + 1) b

theorem bestLoop_cases (p : Box) (matched : List ℕ) (gs : List Box) (i : ℕ)
    (b : ℚ × ℤ) :
    bestLoop p matched gs i b = b ∨
      ∃ k, ∃ h : k < gs.length, (i + k) ∉ matched ∧
        bestLoop p matched gs i b =
          (calculate_iou p (gs.get ⟨k, h⟩), ((i + k : ℕ) : ℤ)) := by
  induction gs generalizing i b with
  | nil => left; rfl
  | cons g rest ih =>
    have shift : ∀ k, i + 1 + k = i + (k + 1) := by omega
    by_cases hm : i ∈ matched
    · rcases ih (i + 1) b with h | ⟨k, hk, hkm, heq⟩
      · left; simpa [bestLoop, hm] using h
      · right
        rw [shift k] at hkm heq
        exact ⟨k + 1, Nat.succ_lt_succ hk, hkm, by simpa [bestLoop, hm] using heq⟩
    · simp only [bestLoop, hm, if_false]
      by_cases hlt : b.1 < calculate_iou p g
      · simp only [hlt, if_true]
        rcases ih (i + 1) (calculate_iou p g, (i : ℤ)) with h | ⟨k, hk, hkm, heq⟩
        · right
          exact ⟨0, by simp, by simpa using hm, by simpa using h⟩
        · right
          rw [shift k] at hkm heq
          exact ⟨k + 1, Nat.succ_lt_succ hk, hkm, by simpa using heq⟩
      · simp only [hlt, if_false]
        rcases ih (i + 1) b with h | ⟨k, hk, hkm, heq⟩
        · left; exact h
        · right
          rw [shift k] at hkm heq
          exact ⟨k + 1, Nat.succ_lt_succ hk, hkm, by simpa using heq⟩

theorem bestLoop_ub (p : Box) (matched : List ℕ) (gs : List Box) (i : ℕ)
    (b : ℚ × ℤ) (k : ℕ) (hk : k < gs.length) (hkm : (i + k) ∉ matched) :
    calculate_iou p (gs.get ⟨k, hk⟩) ≤ (bestLoop p matched gs i b).1 := by
  induction gs generalizing i b k with
  | nil => simp at hk
  | cons g rest ih =>
    by_cases hm : i ∈ matched
    · simp only [bestLoop, hm, if_true]
      cases k with
      | zero => exact absurd (by simpa using hm) (by simpa using hkm)
      | succ k2 =>
          have := ih (i + 1) b k2 (by simpa using Nat.lt_of_succ_lt_succ hk)
            (by rw [show i + 1 + k2 = i + (k2 + 1) by omega]; exact hkm)
          simpa using this
    · simp only [bestLoop, hm, if_false]
      cases k with
      | zero =>
          simp only [List.get]
          by_cases hlt : b.1 < calculate_iou p g
          · simpa [hlt] using bestLoop_mono p matched rest (i + 1)
              (calculate_iou p g, (i : ℤ))
          · calc calculate_iou p g ≤ b.1 := le_of_not_lt hlt
              _ ≤ _ := by simpa [hlt] using bestLoop_mono p matched rest (i + 1) b
      | succ k2 =>
          have := ih (i + 1) (if b.1 < calculate_iou p g
              then (calculate_iou p g, (i : ℤ)) else b) k2
            (by simpa using Nat.lt_of_succ_lt_succ hk)
            (by rw [show i + 1 + k2 = i + (k2 + 1) by omega]; exact hkm)
          by_cases hlt : b.1 < calculate_iou p g <;> simpa [hlt] using this

theorem bestLoop_first (p : Box) (matched : List ℕ) (gs : List Box) (i : ℕ)
    (b : ℚ × ℤ) (hb : b.2 < (i : ℤ)) (k : ℕ) (hk : k < gs.length)
    (hkm : (i + k) ∉ matched)
    (hlt2 : ((i + k : ℕ) : ℤ) < (bestLoop p matched gs i b).2) :
    calculate_iou p (gs.get ⟨k, hk⟩) < (bestLoop p matched gs i b).1 := by
  induction gs generalizing i b k with
  | nil => simp at hk
  | cons g rest ih =>
    by_cases hm : i ∈ matched
    · simp only [bestLoop, hm, if_true] at hlt2 ⊢
      cases k with
      | zero => exact absurd (by simpa using hm) (by simpa using hkm)
      | succ k2 =>
          have hsh : i + 1 + k2 = i + (k2 + 1) := by omega
          have := ih (i + 1) b (lt_trans hb (by exact_mod_cast Nat.lt_succ_self i)) k2
            (by simpa using Nat.lt_of_succ_lt_succ hk) (hsh ▸ hkm)
            (by rw [hsh]; exact hlt2)
          simpa using this
    · simp only [bestLoop, hm, if_false] at hlt2 ⊢
      by_cases hlt : b.1 < calculate_iou p g <;> simp only [hlt, if_true, if_false] at hlt2 ⊢
      · -- the accumulator became (iou g, i)
        cases k with
        | zero =>
            -- index i is strictly below the final best index, so a later
            -- strict improvement happened
            rcases bestLoop_strict p matched rest (i + 1)
                (calculate_iou p g, (i : ℤ)) with heq | hstrict
            · rw [heq] at hlt2
              simp at hlt2
            · simpa [List.get] using hstrict
        | succ k2 =>
            have hsh : i + 1 + k2 = i + (k2 + 1) := by omega
            have := ih (i + 1) (calculate_iou p g, (i : ℤ))
              (by show (i : ℤ) < ((i + 1 : ℕ) : ℤ); exact_mod_cast Nat.lt_succ_self i) k2
              (by simpa using Nat.lt_of_succ_lt_succ hk) (hsh ▸ hkm)
              (by rw [hsh]; exact hlt2)
            simpa using this
      · cases k with
        | zero =>
            -- iou g ≤ b.1, and the final best strictly improved on b
            rcases bestLoop_strict p matched rest (i + 1) b with heq | hstrict
            · rw [heq] at hlt2
              simp only [Nat.add_zero] at hlt2
              exact absurd (lt_trans hb hlt2) (lt_irrefl _)
            · calc calculate_iou p g ≤ b.1 := le_of_not_lt hlt
                _ < _ := hstrict
        | succ k2 =>
            have hsh : i + 1 + k2 = i + (k2 + 1) := by omega
            have := ih (i + 1) b (lt_trans hb (by exact_mod_cast Nat.lt_succ_self i)) k2
              (by simpa using Nat.lt_of_succ_lt_succ hk) (hsh ▸ hkm)
              (by rw [hsh]; exact hlt2)
            simpa using this

/-- `bestMatch` characterization: either nothing was selected (result
`(0, -1)`) or the result is the IoU and index of an unclaimed box. -/
theorem bestMatch_cases (p : Box) (gt_boxes : List Box) (matched : List ℕ) :
    bestMatch p gt_boxes matched = (0, -1) ∨
      ∃ k, ∃ h : k < gt_boxes.length, k ∉ matched ∧
        bestMatch p gt_boxes matched =
          (calculate_iou p (gt_boxes.get ⟨k, h⟩), (k : ℤ)) := by
  rcases bestLoop_cases p matched gt_boxes 0 (0, -1) with h | ⟨k, hk, hkm, heq⟩
  · left; exact h
  · right; exact ⟨k, hk, by simpa using hkm, by simpa using heq⟩

theorem bestMatch_ub (p : Box) (gt_boxes : List Box) (matched : List ℕ)
    (k : ℕ) (hk : k < gt_boxes.length) (hkm : k ∉ matched) :
    calculate_iou p (gt_boxes.get ⟨k, hk⟩) ≤ (bestMatch p gt_boxes matched).1 :=
  by simpa using bestLoop_ub p matched gt_boxes 0 (0, -1) k hk (by simpa using hkm)

theorem bestMatch_first (p : Box) (gt_boxes : List Box) (matched : List ℕ)
    (k : ℕ) (hk : k < gt_boxes.length) (hkm : k ∉ matched)
    (hlt : (k : ℤ) < (bestMatch p gt_boxes matched).2) :
    calculate_iou p (gt_boxes.get ⟨k, hk⟩) < (bestMatch p gt_boxes matched).1 := by
  simpa using bestLoop_first p matched gt_boxes 0 (0, -1) (by norm_num)
      k hk (by simpa using hkm) (by simpa using hlt)

/-- Each predicted box either becomes a false positive (claimed set
untouched) or a true positive claiming one previously unclaimed in-range
ground-truth index. -/
theorem stepPred_cases (iou_threshold : ℚ) (gt_boxes : List Box)
    (st : MatchState) (pred_box : Box) :
    stepPred iou_threshold gt_boxes st pred_box = { st with fp := st.fp + 1 } ∨
      ∃ k, ∃ h : k < gt_boxes.length, k ∉ st.matched ∧
        iou_threshold ≤ calculate_iou pred_box (gt_boxes.get ⟨k, h⟩) ∧
        stepPred iou_threshold gt_boxes st pred_box =
          ⟨st.tp + 1, st.fp, st.matched ++ [k]⟩ := by
  unfold stepPred
  by_cases hcond : iou_threshold ≤ (bestMatch pred_box gt_boxes st.matched).1 ∧
      0 ≤ (bestMatch pred_box gt_boxes st.matched).2
  · right
    rcases bestMatch_cases pred_box gt_boxes st.matched with h0 | ⟨k, hk, hkm, heq⟩
    · rw [h0] at hcond
      exact absurd hcond.2 (by norm_num)
    · refine ⟨k, hk, hkm, ?_, ?_⟩
      · have := hcond.1
        rw [heq] at this
        exact this
      · rw [heq] at hcond ⊢
        rw [if_pos hcond]
        simp [setAdd, hkm, Int.toNat_natCast]
  · left
    simp only [hcond, if_false]

theorem foldl_stepPred_inv (iou_threshold : ℚ) (gt_boxes : List Box)
    (pred_boxes : List Box) :
    ∀ st : MatchState,
      st.tp = st.matched.length → st.matched.Nodup →
      (∀ j ∈ st.matched, j < gt_boxes.length) →
      ((pred_boxes.foldl (stepPred iou_threshold gt_boxes) st).tp =
          (pred_boxes.foldl (stepPred iou_threshold gt_boxes) st).matched.length ∧
        (pred_boxes.foldl (stepPred iou_threshold gt_boxes) st).matched.Nodup ∧
        (∀ j ∈ (pred_boxes.foldl (stepPred iou_threshold gt_boxes) st).matched,
          j < gt_boxes.length)) ∧
      (pred_boxes.foldl (stepPred iou_threshold gt_boxes) st).tp +
          (pred_boxes.foldl (stepPred iou_threshold gt_boxes) st).fp =
        st.tp + st.fp + pred_boxes.length := by
  induction pred_boxes with
  | nil =>
      intro st h1 h2 h3
      exact ⟨⟨h1, h2, h3⟩, by simp⟩
  | cons pb rest ih =>
      intro st h1 h2 h3
      simp only [List.foldl_cons]
      rcases stepPred_cases iou_threshold gt_boxes st pb with hstep |
        ⟨k, hk, hkm, hiou, hstep⟩
      · rw [hstep]
        have := ih { st with fp := st.fp + 1 } h1 h2 h3
        refine ⟨this.1, ?_⟩
        rw [this.2]
        simp
        omega
      · rw [hstep]
        have hnd : (st.matched ++ [k]).Nodup := by
          simp [List.nodup_append, h2, hkm]
        have hbd : ∀ j ∈ st.matched ++ [k], j < gt_boxes.length := by
          intro j hj
          rcases List.mem_append.mp hj with hj | hj
          · exact h3 j hj
          · simpa using (List.mem_singleton.mp hj) ▸ hk
        have := ih ⟨st.tp + 1, st.fp, st.matched ++ [k]⟩
          (by simp [h1]) hnd hbd
        refine ⟨this.1, ?_⟩
        rw [this.2]
        simp
        omega

/-- The matching-loop invariants: `tp` equals the number of claimed indices,
`tp + fp` equals the number of predicted boxes, and the claimed indices are
distinct in-range ground-truth indices. -/
theorem matchClass_inv (iou_threshold : ℚ) (gt_boxes pred_boxes : List Box) :
    (matchClass iou_threshold gt_boxes pred_boxes).tp =
        (matchClass iou_threshold gt_boxes pred_boxes).matched.length ∧
      (matchClass iou_threshold gt_boxes pred_boxes).matched.Nodup ∧
      (∀ j ∈ (matchClass iou_threshold gt_boxes pred_boxes).matched,
        j < gt_boxes.length) ∧
      (matchClass iou_threshold gt_boxes pred_boxes).tp +
          (matchClass iou_threshold gt_boxes pred_boxes).fp =
        pred_boxes.length := by
  have := foldl_stepPred_inv iou_threshold gt_boxes pred_boxes ⟨0, 0, []⟩
    (by simp) (by simp) (by simp)
  refine ⟨this.1.1, this.1.2.1, this.1.2.2, ?_⟩
  have h2 := this.2
  simpa [matchClass] using h2

theorem nodup_bounded_length_le (l : List ℕ) (n : ℕ) (hnd : l.Nodup)
    (hb : ∀ j ∈ l, j < n) : l.length ≤ n := by
  classical
  have h1 : l.toFinset.card = l.length := List.toFinset_card_of_nodup hnd
  have h2 : l.toFinset ⊆ Finset.range n := by
    intro j hj
    exact Finset.mem_range.mpr (hb j (List.mem_toFinset.mp hj))
  calc l.length = l.toFinset.card := h1.symm
    _ ≤ (Finset.range n).card := Finset.card_le_card h2
    _ = n := Finset.card_range n

theorem matched_length_le (iou_threshold : ℚ) (gt_boxes pred_boxes : List Box) :
    (matchClass iou_threshold gt_boxes pred_boxes).matched.length ≤
      gt_boxes.length := by
  obtain ⟨-, h2, h3, -⟩ := matchClass_inv iou_threshold gt_boxes pred_boxes
  exact nodup_bounded_length_le _ _ h2 h3

/-! ### Counting lemmas -/

theorem length_filterMap_ite {α β : Type} (p : α → Prop) [DecidablePred p]
    (g : α → β) (l : List α) :
    (l.filterMap fun a => if p a then some (g a) else none).length =
      l.countP fun a => decide (p a) := by
  induction l with
  | nil => simp
  | cons a rest ih =>
      by_cases hp : p a <;>
        simp [List.filterMap_cons, List.countP_cons, hp, ih]

/-- Total ground-truth objects of an image whose raw code maps to class `c`. -/
def gtClassCount (g : GtData) (c : String) : ℕ :=
  g.objects.countP fun o => decide (dictGet CLASS_MAPPING o.cls = some c)

/-- Total resolved detections of class `c` in an (optional) prediction
record, resolved against the image's ground-truth dimensions. -/
def predClassCount (g : GtData) (p : Option PredData) (c : String) : ℕ :=
  match p with
  | none => 0
  | some p =>
      (p.detections.filterMap (resolveDetection g.width g.height)).countP
        fun e => decide (e.1 = c)

theorem gtBoxesOf_length (objects : List GtObject) (c : String) :
    (gtBoxesOf objects c).length =
      objects.countP fun o => decide (dictGet CLASS_MAPPING o.cls = some c) :=
  length_filterMap_ite _ _ objects

theorem predBoxesOf_length (w h : ℕ) (dets : List Detection) (c : String) :
    (predBoxesOf w h dets c).length =
      (dets.filterMap (resolveDetection w h)).countP
        fun e => decide (e.1 = c) :=
  length_filterMap_ite _ _ _

theorem mem_imageClasses (g : GtData) (dets : List Detection) (c : String) :
    c ∈ imageClasses g dets ↔
      gtBoxesOf g.objects c ≠ [] ∨
        predBoxesOf g.width g.height dets c ≠ [] := by
  rw [imageClasses, List.mem_dedup, List.mem_append]
  constructor
  · rintro (h | h)
    · left
      obtain ⟨o, ho, hoc⟩ := List.mem_filterMap.mp h
      intro hnil
      have : ∀ a ∈ g.objects,
          (if dictGet CLASS_MAPPING a.cls = some c then some a.bbox
            else none) = none := by
        rw [← List.filterMap_eq_nil_iff]
        exact hnil
      have := this o ho
      rw [hoc] at this
      simp at this
    · right
      obtain ⟨e, he, hec⟩ := List.mem_map.mp h
      intro hnil
      have : ∀ a ∈ (dets.filterMap (resolveDetection g.width g.height)),
          (if a.1 = c then some a.2 else none) = none := by
        rw [← List.filterMap_eq_nil_iff]
        exact hnil
      have := this e he
      rw [hec] at this
      simp at this
  · rintro (h | h)
    · left
      obtain ⟨b, hb⟩ := List.exists_mem_of_ne_nil _ h
      obtain ⟨o, ho, hoc⟩ := List.mem_filterMap.mp hb
      refine List.mem_filterMap.mpr ⟨o, ho, ?_⟩
      by_cases hcond : dictGet CLASS_MAPPING o.cls = some c
      · exact hcond
      · simp [hcond] at hoc
    · right
      obtain ⟨b, hb⟩ := List.exists_mem_of_ne_nil _ h
      obtain ⟨e, he, hec⟩ := List.mem_filterMap.mp hb
      refine List.mem_map.mpr ⟨e, he, ?_⟩
      by_cases hcond : e.1 = c
      · exact hcond
      · simp [hcond] at hec

/-! ### Per-image characterization of the accumulated counters -/

theorem getStats_foldl_applyClass (iou_threshold : ℚ) (g : GtData)
    (dets : List Detection) (cs : List String) (hnd : cs.Nodup)
    (m : StatsMap) (c : String) :
    getStats (cs.foldl (applyClass iou_threshold g dets) m) c =
      if c ∈ cs then
        addStats (getStats m c) (classDelta iou_threshold g dets c)
      else getStats m c := by
  induction cs generalizing m with
  | nil => simp
  | cons c0 rest ih =>
      have hnd0 : c0 ∉ rest := (List.nodup_cons.mp hnd).1
      have hndr : rest.Nodup := (List.nodup_cons.mp hnd).2
      simp only [List.foldl_cons]
      rw [ih hndr]
      have hbump : ∀ c', getStats (applyClass iou_threshold g dets m c0) c' =
          if c0 = c' then
            addStats (getStats m c0) (classDelta iou_threshold g dets c0)
          else getStats m c' := by
        intro c'
        exact getStats_bumpStats m c0 _ c'
      by_cases hc : c ∈ rest
      · have hne : c0 ≠ c := fun h => hnd0 (h ▸ hc)
        rw [if_pos hc, if_pos (List.mem_cons.mpr (Or.inr hc)), hbump c,
          if_neg hne]
      · rw [if_neg hc, hbump c]
        by_cases h0 : c0 = c
        · subst h0
          rw [if_pos rfl, if_pos (List.mem_cons.mpr (Or.inl rfl))]
        · rw [if_neg h0, if_neg (by simp [hc, Ne.symm h0])]

theorem getStats_noPredFold (objects : List GtObject) (m : StatsMap)
    (c : String) :
    getStats
        (objects.foldl
          (fun m2 o =>
            match dictGet CLASS_MAPPING o.cls with
            | some c2 => bumpStats m2 c2 fun s => { s with fn := s.fn + 1 }
            | none => m2)
          m) c =
      ⟨(getStats m c).tp, (getStats m c).fp,
        (getStats m c).fn +
          objects.countP fun o =>
            decide (dictGet CLASS_MAPPING o.cls = some c)⟩ := by
  induction objects generalizing m with
  | nil => simp
  | cons o rest ih =>
      simp only [List.foldl_cons, List.countP_cons]
      cases hmo : dictGet CLASS_MAPPING o.cls with
      | none =>
          rw [ih m]
          simp [hmo]
      | some c0 =>
          rw [ih]
          rw [getStats_bumpStats m c0 _ c]
          by_cases h0 : c0 = c
          · subst h0
            simp [hmo]
            omega
          · have : ¬ dictGet CLASS_MAPPING o.cls = some c := by
              rw [hmo]; simpa using h0
            simp [hmo, h0, this]

theorem getStats_noPredUpdate (m : StatsMap) (g : GtData) (c : String) :
    getStats (noPredUpdate m g) c =
      ⟨(getStats m c).tp, (getStats m c).fp,
        (getStats m c).fn + gtClassCount g c⟩ :=
  getStats_noPredFold g.objects m c

theorem getStats_processImage_some (iou_threshold : ℚ) (m : StatsMap)
    (g : GtData) (p : PredData) (hne : ¬ p.detections = []) (c : String) :
    getStats (processImage iou_threshold m g (some p)) c =
      if c ∈ imageClasses g p.detections then
        addStats (getStats m c) (classDelta iou_threshold g p.detections c)
      else getStats m c := by
  simp only [processImage, hne, if_false]
  exact getStats_foldl_applyClass iou_threshold g p.detections _
    (List.nodup_dedup _) m c

theorem classDelta_tp_add_fn (iou_threshold : ℚ) (g : GtData)
    (dets : List Detection) (c : String) :
    (classDelta iou_threshold g dets c).tp +
        (classDelta iou_threshold g dets c).fn =
      (gtBoxesOf g.objects c).length := by
  obtain ⟨h1, -, -, -⟩ := matchClass_inv iou_threshold (gtBoxesOf g.objects c)
    (predBoxesOf g.width g.height dets c)
  have hle := matched_length_le iou_threshold (gtBoxesOf g.objects c)
    (predBoxesOf g.width g.height dets c)
  simp only [classDelta]
  omega

theorem classDelta_tp_add_fp (iou_threshold : ℚ) (g : GtData)
    (dets : List Detection) (c : String) :
    (classDelta iou_threshold g dets c).tp +
        (classDelta iou_threshold g dets c).fp =
      (predBoxesOf g.width g.height dets c).length := by
  obtain ⟨-, -, -, h4⟩ := matchClass_inv iou_threshold (gtBoxesOf g.objects c)
    (predBoxesOf g.width g.height dets c)
  simp only [classDelta]
  omega

theorem processImage_tp_fn (iou_threshold : ℚ) (m : StatsMap) (g : GtData)
    (p : Option PredData) (c : String) :
    (getStats (processImage iou_threshold m g p) c).tp +
        (getStats (processImage iou_threshold m g p) c).fn =
      (getStats m c).tp + (getStats m c).fn + gtClassCount g c := by
  match p with
  | none =>
      simp only [processImage]
      rw [getStats_noPredUpdate]
      dsimp only
      omega
  | some p =>
      by_cases hne : p.detections = []
      · simp only [processImage, hne, if_true]
        rw [getStats_noPredUpdate]
        dsimp only
        omega
      · rw [getStats_processImage_some iou_threshold m g p hne c]
        by_cases hc : c ∈ imageClasses g p.detections
        · rw [if_pos hc]
          have hd := classDelta_tp_add_fn iou_threshold g p.detections c
          have hcount : (gtBoxesOf g.objects c).length = gtClassCount g c :=
            gtBoxesOf_length g.objects c
          simp only [addStats]
          omega
        · rw [if_neg hc]
          have : gtBoxesOf g.objects c = [] := by
            by_contra hnil
            exact hc ((mem_imageClasses g p.detections c).mpr (Or.inl hnil))
          have hcount : gtClassCount g c = 0 := by
            rw [gtClassCount, ← gtBoxesOf_length, this]
            rfl
          omega

theorem processImage_tp_fp (iou_threshold : ℚ) (m : StatsMap) (g : GtData)
    (p : Option PredData) (c : String) :
    (getStats (processImage iou_threshold m g p) c).tp +
        (getStats (processImage iou_threshold m g p) c).fp =
      (getStats m c).tp + (getStats m c).fp + predClassCount g p c := by
  match p with
  | none =>
      simp only [processImage]
      rw [getStats_noPredUpdate]
      dsimp only
      simp [predClassCount]
  | some p =>
      by_cases hne : p.detections = []
      · simp only [processImage, hne, if_true]
        rw [getStats_noPredUpdate]
        dsimp only
        simp [predClassCount, hne]
      · rw [getStats_processImage_some iou_threshold m g p hne c]
        have hcount : (predBoxesOf g.width g.height p.detections c).length =
            predClassCount g (some p) c :=
          predBoxesOf_length g.width g.height p.detections c
        by_cases hc : c ∈ imageClasses g p.detections
        · rw [if_pos hc]
          have hd := classDelta_tp_add_fp iou_threshold g p.detections c
          simp only [addStats]
          omega
        · rw [if_neg hc]
          have : predBoxesOf g.width g.height p.detections c = [] := by
            by_contra hnil
            exact hc ((mem_imageClasses g p.detections c).mpr (Or.inr hnil))
          rw [this] at hcount
          simp at hcount
          omega

/-! ### Corpus-level conservation -/

theorem foldl_images_tp_fn (iou_threshold : ℚ)
    (predictions : List (String × PredData)) (c : String) :
    ∀ (gts : List (String × GtData)) (m : StatsMap),
      (getStats
          (gts.foldl
            (fun m2 e =>
              processImage iou_threshold m2 e.2 (dictGet predictions e.1)) m)
          c).tp +
        (getStats
          (gts.foldl
            (fun m2 e =>
              processImage iou_threshold m2 e.2 (dictGet predictions e.1)) m)
          c).fn =
      (getStats m c).tp + (getStats m c).fn +
        (gts.map fun e => gtClassCount e.2 c).sum := by
  intro gts
  induction gts with
  | nil => intro m; simp
  | cons e rest ih =>
      intro m
      simp only [List.foldl_cons, List.map_cons, List.sum_cons]
      rw [ih]
      have := processImage_tp_fn iou_threshold m e.2
        (dictGet predictions e.1) c
      omega

theorem foldl_images_tp_fp (iou_threshold : ℚ)
    (predictions : List (String × PredData)) (c : String) :
    ∀ (gts : List (String × GtData)) (m : StatsMap),
      (getStats
          (gts.foldl
            (fun m2 e =>
              processImage iou_threshold m2 e.2 (dictGet predictions e.1)) m)
          c).tp +
        (getStats
          (gts.foldl
            (fun m2 e =>
              processImage iou_threshold m2 e.2 (dictGet predictions e.1)) m)
          c).fp =
      (getStats m c).tp + (getStats m c).fp +
        (gts.map fun e => predClassCount e.2 (dictGet predictions e.1) c).sum := by
  intro gts
  induction gts with
  | nil => intro m; simp
  | cons e rest ih =>
      intro m
      simp only [List.foldl_cons, List.map_cons, List.sum_cons]
      rw [ih]
      have := processImage_tp_fp iou_threshold m e.2
        (dictGet predictions e.1) c
      omega

/-! ### Key-set lemmas for the stats map -/

theorem dictSet_keys_nodup {α : Type} (m : List (String × α)) (c : String)
    (v : α) (hnd : (m.map Prod.fst).Nodup) :
    ((dictSet m c v).map Prod.fst).Nodup := by
  rw [dictSet_keys]
  by_cases hc : c ∈ m.map Prod.fst
  · rw [if_pos hc]; exact hnd
  · rw [if_neg hc]
    simpa [List.nodup_append, hc] using hnd

theorem dictSet_mem {α : Type} (m : List (String × α)) (c : String) (v : α)
    (e : String × α) (he : e ∈ dictSet m c v) : e ∈ m ∨ e = (c, v) := by
  induction m with
  | nil => simpa [dictSet] using he
  | cons e2 rest ih =>
      obtain ⟨k2, v2⟩ := e2
      by_cases hk : k2 = c
      · subst hk
        simp only [dictSet, if_pos rfl] at he
        rcases List.mem_cons.mp he with h | h
        · right; exact h
        · left; exact List.mem_cons_of_mem _ h
      · simp only [dictSet, hk, if_false] at he
        rcases List.mem_cons.mp he with h | h
        · left; simp [h]
        · rcases ih h with h2 | h2
          · left; exact List.mem_cons_of_mem _ h2
          · right; exact h2

/-- Sum of the three counters of one entry. -/
def statsWeight (s : Stats) : ℕ := s.tp + s.fp + s.fn

theorem statsWeight_addStats (s d : Stats) :
    statsWeight (addStats s d) = statsWeight s + statsWeight d := by
  simp only [statsWeight, addStats]
  omega

theorem bumpStats_pos (m : StatsMap) (c : String) (f : Stats → Stats)
    (hnew : 1 ≤ statsWeight (f (getStats m c)))
    (hm : ∀ e ∈ m, 1 ≤ statsWeight e.2) :
    ∀ e ∈ bumpStats m c f, 1 ≤ statsWeight e.2 := by
  intro e he
  rcases dictSet_mem m c (f (getStats m c)) e he with h | h
  · exact hm e h
  · rw [h]; exact hnew

theorem classDelta_pos (iou_threshold : ℚ) (g : GtData)
    (dets : List Detection) (c : String) (hc : c ∈ imageClasses g dets) :
    1 ≤ statsWeight (classDelta iou_threshold g dets c) := by
  rcases (mem_imageClasses g dets c).mp hc with h | h
  · have h1 := classDelta_tp_add_fn iou_threshold g dets c
    have h2 : 0 < (gtBoxesOf g.objects c).length := List.length_pos.mpr h
    unfold statsWeight
    omega
  · have h1 := classDelta_tp_add_fp iou_threshold g dets c
    have h2 : 0 < (predBoxesOf g.width g.height dets c).length :=
      List.length_pos.mpr h
    unfold statsWeight
    omega

theorem noPredUpdate_pos (m : StatsMap) (g : GtData)
    (hm : ∀ e ∈ m, 1 ≤ statsWeight e.2) :
    ∀ e ∈ noPredUpdate m g, 1 ≤ statsWeight e.2 := by
  unfold noPredUpdate
  induction g.objects generalizing m with
  | nil => exact hm
  | cons o rest ih =>
      simp only [List.foldl_cons]
      cases hmo : dictGet CLASS_MAPPING o.cls with
      | none => exact ih _ hm
      | some c0 =>
          refine ih _ (bumpStats_pos m c0 _ ?_ hm)
          simp only [statsWeight]
          omega

theorem foldl_applyClass_pos (iou_threshold : ℚ) (g : GtData)
    (dets : List Detection) (cs : List String)
    (hcs : ∀ c ∈ cs, c ∈ imageClasses g dets) (m : StatsMap)
    (hm : ∀ e ∈ m, 1 ≤ statsWeight e.2) :
    ∀ e ∈ cs.foldl (applyClass iou_threshold g dets) m,
      1 ≤ statsWeight e.2 := by
  induction cs generalizing m with
  | nil => exact hm
  | cons c0 rest ih =>
      simp only [List.foldl_cons]
      refine ih (fun c hcr => hcs c (List.mem_cons_of_mem _ hcr)) _
        (bumpStats_pos m c0 _ ?_ hm)
      have := classDelta_pos iou_threshold g dets c0
        (hcs c0 (List.mem_cons_self _ _))
      rw [statsWeight_addStats]
      omega

theorem processImage_pos (iou_threshold : ℚ) (m : StatsMap) (g : GtData)
    (p : Option PredData) (hm : ∀ e ∈ m, 1 ≤ statsWeight e.2) :
    ∀ e ∈ processImage iou_threshold m g p, 1 ≤ statsWeight e.2 := by
  match p with
  | none => exact noPredUpdate_pos m g hm
  | some p =>
      by_cases hne : p.detections = []
      · simpa only [processImage, hne, if_true] using noPredUpdate_pos m g hm
      · simp only [processImage, hne, if_false]
        exact foldl_applyClass_pos iou_threshold g p.detections _
          (fun c hc => hc) m hm

theorem evalLoop_pos (iou_threshold : ℚ) (gts : List (String × GtData))
    (preds : List (String × PredData)) :
    ∀ e ∈ evalLoop iou_threshold gts preds, 1 ≤ statsWeight e.2 := by
  unfold evalLoop
  have : ∀ (l : List (String × GtData)) (m : StatsMap),
      (∀ e ∈ m, 1 ≤ statsWeight e.2) →
      ∀ e ∈ l.foldl
        (fun m2 e2 => processImage iou_threshold m2 e2.2 (dictGet preds e2.1))
        m, 1 ≤ statsWeight e.2 := by
    intro l
    induction l with
    | nil => intro m hm; exact hm
    | cons e2 rest ih =>
        intro m hm
        simp only [List.foldl_cons]
        exact ih _ (processImage_pos iou_threshold m e2.2 _ hm)
  exact this gts [] (by simp)

theorem bumpStats_keys_nodup (m : StatsMap) (c : String) (f : Stats → Stats)
    (hnd : (m.map Prod.fst).Nodup) :
    ((bumpStats m c f).map Prod.fst).Nodup :=
  dictSet_keys_nodup m c _ hnd

theorem noPredUpdate_keys_nodup (m : StatsMap) (g : GtData)
    (hnd : (m.map Prod.fst).Nodup) :
    ((noPredUpdate m g).map Prod.fst).Nodup := by
  unfold noPredUpdate
  induction g.objects generalizing m with
  | nil => exact hnd
  | cons o rest ih =>
      simp only [List.foldl_cons]
      cases hmo : dictGet CLASS_MAPPING o.cls with
      | none => exact ih _ hnd
      | some c0 => exact ih _ (bumpStats_keys_nodup m c0 _ hnd)

theorem processImage_keys_nodup (iou_threshold : ℚ) (m : StatsMap)
    (g : GtData) (p : Option PredData) (hnd : (m.map Prod.fst).Nodup) :
    ((processImage iou_threshold m g p).map Prod.fst).Nodup := by
  match p with
  | none => exact noPredUpdate_keys_nodup m g hnd
  | some p =>
      by_cases hne : p.detections = []
      · simpa only [processImage, hne, if_true] using
          noPredUpdate_keys_nodup m g hnd
      · simp only [processImage, hne, if_false]
        have : ∀ (cs : List String) (m2 : StatsMap),
            (m2.map Prod.fst).Nodup →
            ((cs.foldl (applyClass iou_threshold g p.detections) m2).map
              Prod.fst).Nodup := by
          intro cs
          induction cs with
          | nil => intro m2 h; exact h
          | cons c0 rest ih =>
              intro m2 h
              simp only [List.foldl_cons]
              exact ih _ (bumpStats_keys_nodup m2 c0 _ h)
        exact this _ m hnd

theorem evalLoop_keys_nodup (iou_threshold : ℚ)
    (gts : List (String × GtData)) (preds : List (String × PredData)) :
    ((evalLoop iou_threshold gts preds).map Prod.fst).Nodup := by
  unfold evalLoop
  have : ∀ (l : List (String × GtData)) (m : StatsMap),
      (m.map Prod.fst).Nodup →
      ((l.foldl
        (fun m2 e2 => processImage iou_threshold m2 e2.2 (dictGet preds e2.1))
        m).map Prod.fst).Nodup := by
    intro l
    induction l with
    | nil => intro m hm; exact hm
    | cons e2 rest ih =>
        intro m hm
        simp only [List.foldl_cons]
        exact ih _ (processImage_keys_nodup iou_threshold m e2.2 _ hm)
  exact this gts [] (by simp)

/-! ### Geometry lemmas -/

/-- The BoundingBox invariant of the data model: ordered, non-negative
coordinates. -/
def validBox (b : Box) : Prop :=
  0 ≤ b.xmin ∧ b.xmin ≤ b.xmax ∧ 0 ≤ b.ymin ∧ b.ymin ≤ b.ymax

/-- Disjointness (including boundary touching): the intersection rectangle
has zero or negative width, or zero or negative height. -/
def disjointBoxes (b1 b2 : Box) : Prop :=
  min b1.xmax b2.xmax ≤ max b1.xmin b2.xmin ∨
    min b1.ymax b2.ymax ≤ max b1.ymin b2.ymin

/-- `(xmax - xmin) * (ymax - ymin)`, as computed by `calculate_iou`. -/
def boxArea (b : Box) : ℚ := (b.xmax - b.xmin) * (b.ymax - b.ymin)

/-- The (signed) area of the intersection rectangle of `calculate_iou`. -/
def overlapArea (b1 b2 : Box) : ℚ :=
  (min b1.xmax b2.xmax - max b1.xmin b2.xmin) *
    (min b1.ymax b2.ymax - max b1.ymin b2.ymin)

/-- The `union_area` quantity of `calculate_iou`. -/
def unionAreaOf (b1 b2 : Box) : ℚ :=
  boxArea b1 + boxArea b2 - overlapArea b1 b2

theorem iou_nonneg (b1 b2 : Box) : 0 ≤ calculate_iou b1 b2 := by
  unfold calculate_iou
  dsimp only
  split
  · exact le_refl 0
  next hinv =>
    push_neg at hinv
    split
    next hu =>
      exact div_nonneg
        (mul_nonneg (sub_nonneg.mpr hinv.1) (sub_nonneg.mpr hinv.2))
        (le_of_lt hu)
    · exact le_refl 0

theorem iou_le_one (b1 b2 : Box) : calculate_iou b1 b2 ≤ 1 := by
  unfold calculate_iou
  dsimp only
  split
  · exact zero_le_one
  next hinv =>
    push_neg at hinv
    split
    next hu =>
      rw [div_le_one hu]
      have hw1 : min b1.xmax b2.xmax - max b1.xmin b2.xmin ≤
          b1.xmax - b1.xmin :=
        sub_le_sub (min_le_left _ _) (le_max_left _ _)
      have hw2 : min b1.xmax b2.xmax - max b1.xmin b2.xmin ≤
          b2.xmax - b2.xmin :=
        sub_le_sub (min_le_right _ _) (le_max_right _ _)
      have hh1 : min b1.ymax b2.ymax - max b1.ymin b2.ymin ≤
          b1.ymax - b1.ymin :=
        sub_le_sub (min_le_left _ _) (le_max_left _ _)
      have hh2 : min b1.ymax b2.ymax - max b1.ymin b2.ymin ≤
          b2.ymax - b2.ymin :=
        sub_le_sub (min_le_right _ _) (le_max_right _ _)
      have hw0 : 0 ≤ min b1.xmax b2.xmax - max b1.xmin b2.xmin :=
        sub_nonneg.mpr hinv.1
      have hh0 : 0 ≤ min b1.ymax b2.ymax - max b1.ymin b2.ymin :=
        sub_nonneg.mpr hinv.2
      nlinarith [mul_le_mul hw1 hh1 hh0 (le_trans hw0 hw1)]
    · exact zero_le_one

theorem iou_disjoint (b1 b2 : Box) (hd : disjointBoxes b1 b2) :
    calculate_iou b1 b2 = 0 := by
  unfold calculate_iou
  dsimp only
  split
  · rfl
  next hinv =>
    push_neg at hinv
    have hzero : (min b1.xmax b2.xmax - max b1.xmin b2.xmin) *
        (min b1.ymax b2.ymax - max b1.ymin b2.ymin) = 0 := by
      rcases hd with hd | hd
      · have : min b1.xmax b2.xmax - max b1.xmin b2.xmin = 0 :=
          le_antisymm (sub_nonpos.mpr hd) (sub_nonneg.mpr hinv.1)
        rw [this, zero_mul]
      · have : min b1.ymax b2.ymax - max b1.ymin b2.ymin = 0 :=
          le_antisymm (sub_nonpos.mpr hd) (sub_nonneg.mpr hinv.2)
        rw [this, mul_zero]
    split
    · rw [hzero, zero_div]
    · rfl

theorem iou_union_zero (b1 b2 : Box) (hu : unionAreaOf b1 b2 = 0) :
    calculate_iou b1 b2 = 0 := by
  unfold unionAreaOf boxArea overlapArea at hu
  unfold calculate_iou
  dsimp only
  split
  · rfl
  · split
    next hpos =>
      exfalso
      rw [hu] at hpos
      exact lt_irrefl 0 hpos
    · rfl

theorem iou_self (b : Box) (hx : b.xmin < b.xmax) (hy : b.ymin < b.ymax) :
    calculate_iou b b = 1 := by
  unfold calculate_iou
  dsimp only
  rw [min_self, min_self, max_self, max_self]
  rw [if_neg (by push_neg; exact ⟨le_of_lt hx, le_of_lt hy⟩)]
  have harea : 0 < (b.xmax - b.xmin) * (b.ymax - b.ymin) :=
    mul_pos (sub_pos.mpr hx) (sub_pos.mpr hy)
  rw [if_pos (by linarith)]
  field_simp

/-! ### Truncation lemma -/

theorem pyInt_eq_floor (q : ℚ) (hq : 0 ≤ q) : pyInt q = ⌊q⌋ := by
  rw [pyInt, Rat.floor_def]
  exact Int.tdiv_eq_ediv (Rat.num_nonneg.mpr hq) (Int.ofNat_nonneg q.den)

/-! ### Matching over an empty ground-truth list -/

theorem stepPred_nil_gt (iou_threshold : ℚ) (st : MatchState)
    (pred_box : Box) :
    stepPred iou_threshold [] st pred_box = { st with fp := st.fp + 1 } := by
  unfold stepPred bestMatch bestLoop
  rw [if_neg]
  rintro ⟨-, h2⟩
  norm_num at h2

theorem matchClass_nil_gt (iou_threshold : ℚ) (pred_boxes : List Box) :
    matchClass iou_threshold [] pred_boxes = ⟨0, pred_boxes.length, []⟩ := by
  have : ∀ st : MatchState,
      pred_boxes.foldl (stepPred iou_threshold []) st =
        ⟨st.tp, st.fp + pred_boxes.length, st.matched⟩ := by
    induction pred_boxes with
    | nil => intro st; simp
    | cons pb rest ih =>
        intro st
        simp only [List.foldl_cons, stepPred_nil_gt, ih]
        simp
        omega

  simpa [matchClass] using this ⟨0, 0, []⟩

theorem gtBoxesOf_unmapped (objects : List GtObject)
    (hall : ∀ o ∈ objects, dictGet CLASS_MAPPING o.cls = none) (c : String) :
    gtBoxesOf objects c = [] := by
  rw [gtBoxesOf, List.filterMap_eq_nil_iff]
  intro o ho
  rw [hall o ho]
  simp

theorem noPredUpdate_unmapped (m : StatsMap) (g : GtData)
    (hall : ∀ o ∈ g.objects, dictGet CLASS_MAPPING o.cls = none) :
    noPredUpdate m g = m := by
  unfold noPredUpdate
  have : ∀ (l : List GtObject), (∀ o ∈ l, dictGet CLASS_MAPPING o.cls = none) →
      ∀ m2 : StatsMap,
      l.foldl
        (fun m3 o =>
          match dictGet CLASS_MAPPING o.cls with
          | some c => bumpStats m3 c fun s => { s with fn := s.fn + 1 }
          | none => m3)
        m2 = m2 := by
    intro l
    induction l with
    | nil => intro _ m2; rfl
    | cons o rest ih =>
        intro hall2 m2
        simp only [List.foldl_cons]
        rw [hall2 o (List.mem_cons_self _ _)]
        exact ih (fun o2 ho2 => hall2 o2 (List.mem_cons_of_mem _ ho2)) m2
  exact this g.objects hall m

/-! ### Relating entry values and `getStats` -/

theorem map_getStats_eq (m : StatsMap) (hnd : (m.map Prod.fst).Nodup)
    (F : Stats → ℚ) :
    (m.map Prod.fst).map (fun c => F (getStats m c)) =
      m.map fun e => F e.2 := by
  induction m with
  | nil => rfl
  | cons e rest ih =>
      obtain ⟨k, v⟩ := e
      simp only [List.map_cons, List.nodup_cons] at hnd ⊢
      congr 1
      · simp [getStats, dictGet]
      · have : ∀ c ∈ rest.map Prod.fst,
            F (getStats ((k, v) :: rest) c) = F (getStats rest c) := by
          intro c hc
          have hkc : k ≠ c := fun h => hnd.1 (h ▸ hc)
          simp [getStats, dictGet, hkc]
        rw [List.map_congr_left this]
        exact ih hnd.2

/-! ### Claim theorems -/

/-- Claim C6: for every pair of boxes satisfying the BoundingBox invariant
(`xmin ≤ xmax`, `ymin ≤ ymax`, non-negative coordinates), `calculate_iou`
returns a value in `[0, 1]`, returns exactly `0` when the boxes are disjoint
(including boundary touching with a zero-width or zero-height intersection),
and returns exactly `0` when the `union_area` quantity is `0` — the guard
`union_area > 0` is what makes the function total, never executing a
division by zero. -/
theorem claim_C6 (b1 b2 : Box) (h1 : validBox b1) (h2 : validBox b2) :
    (0 ≤ calculate_iou b1 b2 ∧ calculate_iou b1 b2 ≤ 1) ∧
    (disjointBoxes b1 b2 → calculate_iou b1 b2 = 0) ∧
    (unionAreaOf b1 b2 = 0 → calculate_iou b1 b2 = 0) :=
  ⟨⟨iou_nonneg b1 b2, iou_le_one b1 b2⟩,
    fun hd => iou_disjoint b1 b2 hd,
    fun hu => iou_union_zero b1 b2 hu⟩

/-- Witness for C6 at the boxes `[0,0,2,2]` and `[3,0,5,2]` (disjoint). -/
theorem claim_C6_witness :
    validBox ⟨0, 0, 2, 2⟩ ∧ validBox ⟨3, 0, 5, 2⟩ ∧
    ((0 ≤ calculate_iou ⟨0, 0, 2, 2⟩ ⟨3, 0, 5, 2⟩ ∧
        calculate_iou ⟨0, 0, 2, 2⟩ ⟨3, 0, 5, 2⟩ ≤ 1) ∧
      (disjointBoxes ⟨0, 0, 2, 2⟩ ⟨3, 0, 5, 2⟩ →
        calculate_iou ⟨0, 0, 2, 2⟩ ⟨3, 0, 5, 2⟩ = 0) ∧
      (unionAreaOf ⟨0, 0, 2, 2⟩ ⟨3, 0, 5, 2⟩ = 0 →
        calculate_iou ⟨0, 0, 2, 2⟩ ⟨3, 0, 5, 2⟩ = 0)) :=
  ⟨by constructor <;> norm_num,
   by constructor <;> norm_num,
   claim_C6 ⟨0, 0, 2, 2⟩ ⟨3, 0, 5, 2⟩
     (by constructor <;> norm_num) (by constructor <;> norm_num)⟩

/-- Claim C9: for every non-degenerate box (strictly positive width and
height, coordinates non-negative per the invariant), the IoU of the box
with itself is exactly `1`. -/
theorem claim_C9 (b : Box) (h0 : 0 ≤ b.xmin) (h1 : 0 ≤ b.ymin)
    (hx : b.xmin < b.xmax) (hy : b.ymin < b.ymax) :
    calculate_iou b b = 1 :=
  iou_self b hx hy

/-- Witness for C9 at the box `[1,2,4,7]`. -/
theorem claim_C9_witness :
    (0 : ℚ) ≤ 1 ∧ (0 : ℚ) ≤ 2 ∧ (1 : ℚ) < 4 ∧ (2 : ℚ) < 7 ∧
    calculate_iou ⟨1, 2, 4, 7⟩ ⟨1, 2, 4, 7⟩ = 1 :=
  ⟨by norm_num, by norm_num, by norm_num, by norm_num,
   claim_C9 ⟨1, 2, 4, 7⟩ (by norm_num) (by norm_num) (by norm_num)
     (by norm_num)⟩

/-- Claim C8: for a relative box `[ymin_rel, xmin_rel, ymax_rel, xmax_rel]`
with every coordinate in `[0, 1]` and natural image dimensions, the
conversion returns `[xmin, ymin, xmax, ymax]` (x-first output order versus
the y-first input order) where each coordinate is the floor of the
corresponding relative coordinate scaled by the matching dimension — the
toward-zero truncation `int(...)` coincides with the floor on these
non-negative products. -/
theorem claim_C8 (y0 x0 y1 x1 : ℚ) (w h : ℕ)
    (hy0 : 0 ≤ y0) (hy0u : y0 ≤ 1) (hx0 : 0 ≤ x0) (hx0u : x0 ≤ 1)
    (hy1 : 0 ≤ y1) (hy1u : y1 ≤ 1) (hx1 : 0 ≤ x1) (hx1u : x1 ≤ 1) :
    convert_relative_to_absolute [y0, x0, y1, x1] w h =
      some ⟨((⌊x0 * (w : ℚ)⌋ : ℤ) : ℚ), ((⌊y0 * (h : ℚ)⌋ : ℤ) : ℚ),
        ((⌊x1 * (w : ℚ)⌋ : ℤ) : ℚ), ((⌊y1 * (h : ℚ)⌋ : ℤ) : ℚ)⟩ := by
  show some _ = _
  rw [pyInt_eq_floor _ (mul_nonneg hx0 (Nat.cast_nonneg w)),
    pyInt_eq_floor _ (mul_nonneg hy0 (Nat.cast_nonneg h)),
    pyInt_eq_floor _ (mul_nonneg hx1 (Nat.cast_nonneg w)),
    pyInt_eq_floor _ (mul_nonneg hy1 (Nat.cast_nonneg h))]

/-- Witness for C8 at the relative box `[1/2, 1/4, 1, 1]` with a 10 by 7
image. -/
theorem claim_C8_witness :
    (0 : ℚ) ≤ 1/2 ∧ (1 : ℚ)/2 ≤ 1 ∧ (0 : ℚ) ≤ 1/4 ∧ (1 : ℚ)/4 ≤ 1 ∧
    (0 : ℚ) ≤ 1 ∧ (1 : ℚ) ≤ 1 ∧
    convert_relative_to_absolute [1/2, 1/4, 1, 1] 10 7 =
      some ⟨2, 3, 10, 7⟩ := by
  refine ⟨by norm_num, by norm_num, by norm_num, by norm_num, by norm_num,
    by norm_num, ?_⟩
  have h := claim_C8 (1/2) (1/4) 1 1 10 7 (by norm_num) (by norm_num)
    (by norm_num) (by norm_num) (by norm_num) (by norm_num) (by norm_num)
    (by norm_num)
  rw [h]
  with_unfolding_all decide

/-- Claim C1: for a positive threshold (the script always uses the default
`0.5`), processing one predicted box (the per-class loop handles the
predicted boxes of the source record in order, `matchClass` being a left
fold of `stepPred`) behaves as follows.  If some not-yet-claimed
ground-truth box reaches the threshold, the box claims the unclaimed index
`k` of maximum IoU — first occurrence winning ties, i.e. every unclaimed
index has IoU at most that of `k` and every earlier unclaimed index has
strictly smaller IoU — and increments the true-positive count; otherwise it
increments the false-positive count and claims nothing.  The final conjunct
is Scenario D: two ground-truth `alligator_crack` boxes both overlapping a
single prediction above threshold yield exactly one true positive and one
remaining false negative. -/
theorem claim_C1 (iou_threshold : ℚ) (hpos : 0 < iou_threshold)
    (gt_boxes : List Box) (st : MatchState) (pred_box : Box) :
    ((∃ j, ∃ hj : j < gt_boxes.length, j ∉ st.matched ∧
        iou_threshold ≤ calculate_iou pred_box (gt_boxes.get ⟨j, hj⟩)) →
      ∃ k, ∃ hk : k < gt_boxes.length, k ∉ st.matched ∧
        stepPred iou_threshold gt_boxes st pred_box =
          ⟨st.tp + 1, st.fp, st.matched ++ [k]⟩ ∧
        iou_threshold ≤ calculate_iou pred_box (gt_boxes.get ⟨k, hk⟩) ∧
        (∀ j, ∀ hj : j < gt_boxes.length, j ∉ st.matched →
          calculate_iou pred_box (gt_boxes.get ⟨j, hj⟩) ≤
            calculate_iou pred_box (gt_boxes.get ⟨k, hk⟩)) ∧
        (∀ j, ∀ hj : j < gt_boxes.length, j ∉ st.matched → j < k →
          calculate_iou pred_box (gt_boxes.get ⟨j, hj⟩) <
            calculate_iou pred_box (gt_boxes.get ⟨k, hk⟩))) ∧
    ((∀ j, ∀ hj : j < gt_boxes.length, j ∉ st.matched →
        calculate_iou pred_box (gt_boxes.get ⟨j, hj⟩) < iou_threshold) →
      stepPred iou_threshold gt_boxes st pred_box =
        ⟨st.tp, st.fp + 1, st.matched⟩) ∧
    evalLoop (1/2)
        [("img", ⟨100, 100,
          [⟨"D20", ⟨0, 0, 50, 50⟩⟩, ⟨"D20", ⟨0, 0, 50, 60⟩⟩]⟩)]
        [("img", ⟨100, 100,
          [⟨some "alligator_crack", some [0, 0, 1/2, 1/2]⟩]⟩)] =
      [("alligator_crack", ⟨1, 0, 1⟩)] := by
  refine ⟨?_, ?_, by with_unfolding_all decide⟩
  · rintro ⟨j, hj, hjm, hjth⟩
    rcases bestMatch_cases pred_box gt_boxes st.matched with h0 | ⟨k, hk, hkm, heq⟩
    · exfalso
      have hub := bestMatch_ub pred_box gt_boxes st.matched j hj hjm
      rw [h0] at hub
      simp only at hub
      linarith
    · have hth : iou_threshold ≤ calculate_iou pred_box (gt_boxes.get ⟨k, hk⟩) := by
        have hub := bestMatch_ub pred_box gt_boxes st.matched j hj hjm
        rw [heq] at hub
        exact le_trans hjth hub
      refine ⟨k, hk, hkm, ?_, hth, ?_, ?_⟩
      · unfold stepPred
        rw [heq]
        rw [if_pos ⟨hth, Int.natCast_nonneg k⟩]
        simp [MatchState.mk.injEq, setAdd, hkm, Int.toNat_natCast]
      · intro j2 hj2 hj2m
        have hub := bestMatch_ub pred_box gt_boxes st.matched j2 hj2 hj2m
        rw [heq] at hub
        exact hub
      · intro j2 hj2 hj2m hlt
        have hfirst := bestMatch_first pred_box gt_boxes st.matched j2 hj2 hj2m
          (by rw [heq]; show (j2 : ℤ) < ((k : ℕ) : ℤ); exact_mod_cast hlt)
        rw [heq] at hfirst
        exact hfirst
  · intro hall
    rcases bestMatch_cases pred_box gt_boxes st.matched with h0 | ⟨k, hk, hkm, heq⟩
    · unfold stepPred
      rw [h0]
      rw [if_neg (by rintro ⟨-, hcontra⟩; norm_num at hcontra)]
    · unfold stepPred
      rw [heq]
      have hneg : ¬(iou_threshold ≤
          (calculate_iou pred_box (gt_boxes.get ⟨k, hk⟩), (k : ℤ)).1 ∧
          (0 : ℤ) ≤ (calculate_iou pred_box (gt_boxes.get ⟨k, hk⟩), (k : ℤ)).2) := by
        rintro ⟨hcontra, -⟩
        exact absurd hcontra (not_le.mpr (hall k hk hkm))
      rw [if_neg hneg]

/-- Witness for C1 at threshold `1/2`, one available ground-truth box and a
prediction identical to it. -/
theorem claim_C1_witness :
    (0 : ℚ) < 1/2 ∧
    stepPred (1/2) [⟨0, 0, 10, 10⟩] ⟨0, 0, []⟩ ⟨0, 0, 10, 10⟩ =
      ⟨1, 0, [0]⟩ := by
  refine ⟨by norm_num, ?_⟩
  obtain ⟨k, hk, -, heq, -, -, -⟩ :=
    (claim_C1 (1/2) (by norm_num) [⟨0, 0, 10, 10⟩] ⟨0, 0, []⟩
      ⟨0, 0, 10, 10⟩).1
      ⟨0, by norm_num, by simp, by
        show (1 : ℚ)/2 ≤ calculate_iou ⟨0, 0, 10, 10⟩ ⟨0, 0, 10, 10⟩
        have : calculate_iou ⟨0, 0, 10, 10⟩ ⟨0, 0, 10, 10⟩ = 1 := by
          with_unfolding_all decide
        rw [this]
        norm_num⟩
  simp only [List.length_singleton, Nat.lt_one_iff] at hk
  subst hk
  simpa using heq

/-- Claim C7: an image of the corpus with no prediction record turns every
ground-truth object whose raw class maps to a canonical class into a false
negative of that class, and changes no true-positive or false-positive
counter and no other class's counters.  The final conjunct is Scenario C:
two `longitudinal_crack` (`D00`) ground-truth boxes and no prediction
record yield `fn = 2` for that class and touch nothing else. -/
theorem claim_C7 (iou_threshold : ℚ) (m : StatsMap) (g : GtData)
    (c : String) :
    getStats (processImage iou_threshold m g none) c =
      ⟨(getStats m c).tp, (getStats m c).fp,
        (getStats m c).fn + gtClassCount g c⟩ ∧
    evalLoop (1/2)
        [("img", ⟨100, 100,
          [⟨"D00", ⟨0, 0, 50, 50⟩⟩, ⟨"D00", ⟨60, 60, 90, 90⟩⟩]⟩)] [] =
      [("longitudinal_crack", ⟨0, 0, 2⟩)] :=
  ⟨getStats_noPredUpdate m g c, by with_unfolding_all decide⟩

/-- Claim C10: a prediction record whose `detections` list is empty (falsy,
exactly like an absent record) is scored identically to having no
prediction record at all: the no-prediction branch runs and the per-class
matching loop is never entered, so the image can produce no true or false
positive. -/
theorem claim_C10 (iou_threshold : ℚ) (m : StatsMap) (g : GtData)
    (w h : ℕ) :
    processImage iou_threshold m g (some ⟨w, h, []⟩) =
      processImage iou_threshold m g none := by
  simp [processImage]

/-- Claim C2: conservation laws of the accumulation phase of
`evaluate_detections`.  For every class `c` and any threshold, once the
per-image loop has processed the whole corpus, `tp + fn` equals the total
number of ground-truth objects whose raw code maps to `c` over all loaded
images, and `tp + fp` equals the total number of resolved canonical-class
`c` predictions over the prediction records of images present in the
corpus. -/
theorem claim_C2 (iou_threshold : ℚ) (gts : List (String × GtData))
    (preds : List (String × PredData)) (c : String) :
    (getStats (evalLoop iou_threshold gts preds) c).tp +
        (getStats (evalLoop iou_threshold gts preds) c).fn =
      (gts.map fun e => gtClassCount e.2 c).sum ∧
    (getStats (evalLoop iou_threshold gts preds) c).tp +
        (getStats (evalLoop iou_threshold gts preds) c).fp =
      (gts.map fun e => predClassCount e.2 (dictGet preds e.1) c).sum := by
  constructor
  · have h := foldl_images_tp_fn iou_threshold preds c gts []
    rw [evalLoop]
    rw [h]
    simp [getStats, dictGet]
  · have h := foldl_images_tp_fp iou_threshold preds c gts []
    rw [evalLoop]
    rw [h]
    simp [getStats, dictGet]

/-- Counterexample to claim C3: the label `"zebra"` is absent from
`LABEL_NORMALIZATION` and is not a canonical class, yet a `"zebra"`
detection is **not** dropped: it is scored under its raw label and
increments the false-positive counter of a class named `"zebra"`
(which therefore also enters the macro-average denominator). -/
theorem claim_C3_counterexample :
    dictGet LABEL_NORMALIZATION "zebra" = none ∧
    dictGet CLASS_MAPPING "zebra" = none ∧
    ("zebra" ∉ CLASS_MAPPING.map Prod.snd) ∧
    getStats
        (evalLoop (1/2)
          [("img", ⟨10, 10, [⟨"D00", ⟨0, 0, 10, 10⟩⟩]⟩)]
          [("img", ⟨10, 10, [⟨some "zebra", some [0, 0, 1, 1]⟩]⟩)])
        "zebra" = ⟨0, 1, 0⟩ := by
  refine ⟨rfl, rfl, by decide, ?_⟩
  with_unfolding_all decide

/-- Amended claim C3: only the ambiguous legacy label `"crack"` (normalized
to `None`) and falsy/malformed detections are dropped.  A truthy label
absent from `LABEL_NORMALIZATION` passes through unchanged: with a valid
four-element box the detection is resolved under its raw label, creating a
class of that name, and — there being no ground-truth box of that label —
each such prediction in a matching pass over an empty ground-truth list
becomes a false positive. -/
theorem claim_C3_amended (l : String)
    (hl1 : dictGet LABEL_NORMALIZATION l = none) (hl2 : l ≠ "") :
    (∀ (w h : ℕ) (q1 q2 q3 q4 : ℚ) (d : Detection),
      d.label = some l → d.box_2d = some [q1, q2, q3, q4] →
      resolveDetection w h d =
        some (l, ⟨(pyInt (q2 * w) : ℤ), (pyInt (q1 * h) : ℤ),
          (pyInt (q4 * w) : ℤ), (pyInt (q3 * h) : ℤ)⟩)) ∧
    (∀ (iou_threshold : ℚ) (pred_boxes : List Box),
      matchClass iou_threshold [] pred_boxes =
        ⟨0, pred_boxes.length, []⟩) ∧
    (∀ (w h : ℕ) (d : Detection), d.label = some "crack" →
      resolveDetection w h d = none) := by
  refine ⟨?_, fun t ps => matchClass_nil_gt t ps, ?_⟩
  · intro w h q1 q2 q3 q4 d hdl hdb
    obtain ⟨lab, box⟩ := d
    simp only at hdl hdb
    subst hdl
    subst hdb
    simp [resolveDetection, hl1, hl2, convert_relative_to_absolute]
  · intro w h d hdl
    obtain ⟨lab, box⟩ := d
    simp only at hdl
    subst hdl
    cases box <;> rfl

/-- Witness for the amended claim C3 at the label `"zebra"`. -/
theorem claim_C3_amended_witness :
    dictGet LABEL_NORMALIZATION "zebra" = none ∧ "zebra" ≠ "" ∧
    resolveDetection 10 10 ⟨some "zebra", some [0, 0, 1, 1]⟩ =
      some ("zebra", ⟨0, 0, 10, 10⟩) := by
  refine ⟨rfl, by decide, ?_⟩
  have h := (claim_C3_amended "zebra" rfl (by decide)).1 10 10 0 0 1 1
    ⟨some "zebra", some [0, 0, 1, 1]⟩ rfl rfl
  rw [h]
  with_unfolding_all decide

/-- Counterexample to claim C4: an image whose only object carries the
unmapped raw code `"D50"` has zero surviving objects after class-mapping,
yet `main`'s corpus filter keeps it (the filter only tests raw-object-list
emptiness), and a prediction addressed to it produces a false positive. -/
theorem claim_C4_counterexample :
    mainKeepsImage ⟨10, 10, [⟨"D50", ⟨0, 0, 5, 5⟩⟩]⟩ = true ∧
    dictGet CLASS_MAPPING "D50" = none ∧
    getStats
        (evalLoop (1/2)
          [("img", ⟨10, 10, [⟨"D50", ⟨0, 0, 5, 5⟩⟩]⟩)]
          [("img", ⟨10, 10, [⟨some "pothole", some [0, 0, 1, 1]⟩]⟩)])
        "pothole" = ⟨0, 1, 0⟩ := by
  refine ⟨rfl, rfl, ?_⟩
  with_unfolding_all decide

/-- Amended claim C4: `main` excludes only images whose raw object list is
empty.  An image all of whose objects fail class-mapping stays in the
corpus; it contributes no false negatives (with or without a prediction
record), but each resolved prediction addressed to it becomes a false
positive of its class. -/
theorem claim_C4_amended (iou_threshold : ℚ) (m : StatsMap) (g : GtData)
    (hall : ∀ o ∈ g.objects, dictGet CLASS_MAPPING o.cls = none) :
    processImage iou_threshold m g none = m ∧
    ∀ (p : PredData) (c : String),
      getStats (processImage iou_threshold m g (some p)) c =
        ⟨(getStats m c).tp,
          (getStats m c).fp +
            (predBoxesOf g.width g.height p.detections c).length,
          (getStats m c).fn⟩ := by
  have hnone : processImage iou_threshold m g none = m :=
    noPredUpdate_unmapped m g hall
  refine ⟨hnone, ?_⟩
  intro p c
  by_cases hne : p.detections = []
  · simp only [processImage, hne, if_true]
    rw [noPredUpdate_unmapped m g hall]
    simp [predBoxesOf]
  · rw [getStats_processImage_some iou_threshold m g p hne c]
    have hgt : gtBoxesOf g.objects c = [] := gtBoxesOf_unmapped g.objects hall c
    by_cases hc : c ∈ imageClasses g p.detections
    · rw [if_pos hc]
      simp only [classDelta, hgt, matchClass_nil_gt, addStats]
      simp
    · rw [if_neg hc]
      have hpred : predBoxesOf g.width g.height p.detections c = [] := by
        by_contra hnil
        exact hc ((mem_imageClasses g p.detections c).mpr (Or.inr hnil))
      rw [hpred]
      simp

/-- Witness for the amended claim C4: one image whose only object has the
unmapped code `"D50"`. -/
theorem claim_C4_amended_witness :
    (∀ o ∈ (⟨10, 10, [⟨"D50", ⟨0, 0, 5, 5⟩⟩]⟩ : GtData).objects,
      dictGet CLASS_MAPPING o.cls = none) ∧
    processImage (1/2) [] ⟨10, 10, [⟨"D50", ⟨0, 0, 5, 5⟩⟩]⟩ none = [] := by
  have hall : ∀ o ∈ (⟨10, 10, [⟨"D50", ⟨0, 0, 5, 5⟩⟩]⟩ : GtData).objects,
      dictGet CLASS_MAPPING o.cls = none := by
    intro o ho
    simp only [List.mem_singleton] at ho
    subst ho
    rfl
  exact ⟨hall, (claim_C4_amended (1/2) [] _ hall).1⟩

/-- Claim C5: when at least one class accumulated counters, the results
dict carries, under the distinguished key `"macro_average"`, an entry (with
no counters) whose precision, recall and f1 are the unweighted arithmetic
means of the per-class values taken over exactly the classes with nonzero
`tp + fp + fn`: the class-key list of the accumulated stats is
duplicate-free, a class belongs to it iff its counters are nonzero, and
each macro ratio is the sum of that metric over this key list divided by
its length.  Classes never observed contribute nothing — they are absent
from the key list, not zero terms. -/
theorem claim_C5 (iou_threshold : ℚ) (gts : List (String × GtData))
    (preds : List (String × PredData))
    (hne : evalLoop iou_threshold gts preds ≠ []) :
    ∃ M : Metrics,
      dictGet (evaluate_detections gts preds iou_threshold) "macro_average" =
        some M ∧
      M.counts = none ∧
      ((evalLoop iou_threshold gts preds).map Prod.fst).Nodup ∧
      (∀ c : String,
        c ∈ (evalLoop iou_threshold gts preds).map Prod.fst ↔
          (getStats (evalLoop iou_threshold gts preds) c).tp +
              (getStats (evalLoop iou_threshold gts preds) c).fp +
              (getStats (evalLoop iou_threshold gts preds) c).fn ≠ 0) ∧
      M.precisionScore =
        (((evalLoop iou_threshold gts preds).map Prod.fst).map fun c =>
            (metricsOf (getStats (evalLoop iou_threshold gts preds) c)).precisionScore).sum /
          (((evalLoop iou_threshold gts preds).map Prod.fst).length : ℚ) ∧
      M.recallScore =
        (((evalLoop iou_threshold gts preds).map Prod.fst).map fun c =>
            (metricsOf (getStats (evalLoop iou_threshold gts preds) c)).recallScore).sum /
          (((evalLoop iou_threshold gts preds).map Prod.fst).length : ℚ) ∧
      M.f1Score =
        (((evalLoop iou_threshold gts preds).map Prod.fst).map fun c =>
            (metricsOf (getStats (evalLoop iou_threshold gts preds) c)).f1Score).sum /
          (((evalLoop iou_threshold gts preds).map Prod.fst).length : ℚ) := by
  have hnd := evalLoop_keys_nodup iou_threshold gts preds
  have hpos := evalLoop_pos iou_threshold gts preds
  have hresne : classResults (evalLoop iou_threshold gts preds) ≠ [] := by
    simpa [classResults] using hne
  have hmapP : (classResults (evalLoop iou_threshold gts preds)).map
      (fun e => e.2.precisionScore) =
      ((evalLoop iou_threshold gts preds).map Prod.fst).map fun c =>
        (metricsOf (getStats (evalLoop iou_threshold gts preds) c)).precisionScore := by
    rw [map_getStats_eq (evalLoop iou_threshold gts preds) hnd
      (fun s => (metricsOf s).precisionScore)]
    simp [classResults, List.map_map]
  have hmapR : (classResults (evalLoop iou_threshold gts preds)).map
      (fun e => e.2.recallScore) =
      ((evalLoop iou_threshold gts preds).map Prod.fst).map fun c =>
        (metricsOf (getStats (evalLoop iou_threshold gts preds) c)).recallScore := by
    rw [map_getStats_eq (evalLoop iou_threshold gts preds) hnd
      (fun s => (metricsOf s).recallScore)]
    simp [classResults, List.map_map]
  have hmapF : (classResults (evalLoop iou_threshold gts preds)).map
      (fun e => e.2.f1Score) =
      ((evalLoop iou_threshold gts preds).map Prod.fst).map fun c =>
        (metricsOf (getStats (evalLoop iou_threshold gts preds) c)).f1Score := by
    rw [map_getStats_eq (evalLoop iou_threshold gts preds) hnd
      (fun s => (metricsOf s).f1Score)]
    simp [classResults, List.map_map]
  have hlen : ((classResults (evalLoop iou_threshold gts preds)).length : ℚ) =
      (((evalLoop iou_threshold gts preds).map Prod.fst).length : ℚ) := by
    simp [classResults]
  refine ⟨⟨none,
      ((classResults (evalLoop iou_threshold gts preds)).map
          fun e => e.2.precisionScore).sum /
        ((classResults (evalLoop iou_threshold gts preds)).length : ℚ),
      ((classResults (evalLoop iou_threshold gts preds)).map
          fun e => e.2.recallScore).sum /
        ((classResults (evalLoop iou_threshold gts preds)).length : ℚ),
      ((classResults (evalLoop iou_threshold gts preds)).map
          fun e => e.2.f1Score).sum /
        ((classResults (evalLoop iou_threshold gts preds)).length : ℚ)⟩,
    ?_, rfl, hnd, ?_, ?_, ?_, ?_⟩
  · show dictGet
      (withMacroAvg (classResults (evalLoop iou_threshold gts preds)))
      "macro_average" = _
    unfold withMacroAvg
    rw [if_neg hresne]
    rw [dictGet_dictSet]
    rw [if_pos rfl]
  · intro c
    constructor
    · intro hc
      obtain ⟨e, he, hec⟩ := List.mem_map.mp hc
      have hmem : (c, e.2) ∈ evalLoop iou_threshold gts preds := by
        rw [← hec]
        simpa using he
      have hget : dictGet (evalLoop iou_threshold gts preds) c = some e.2 :=
        mem_dictGet _ c e.2 hnd hmem
      have hw := hpos e he
      rw [getStats, hget]
      simp only [Option.getD_some]
      unfold statsWeight at hw
      omega
    · intro hw
      by_contra hc
      rw [getStats, dictGet_eq_none _ c hc] at hw
      simp at hw
  · simp only [hmapP, hlen]
  · simp only [hmapR, hlen]
  · simp only [hmapF, hlen]

/-- Witness for C5: a one-image, one-object corpus with no predictions has
the single observed class `longitudinal_crack` and macro averages `0`. -/
theorem claim_C5_witness :
    evalLoop (1/2) [("img", ⟨10, 10, [⟨"D00", ⟨0, 0, 10, 10⟩⟩]⟩)] [] ≠ [] ∧
    ∃ M : Metrics,
      dictGet
          (evaluate_detections
            [("img", ⟨10, 10, [⟨"D00", ⟨0, 0, 10, 10⟩⟩]⟩)] [] (1/2))
          "macro_average" = some M ∧
        M.counts = none ∧ M.precisionScore = 0 ∧ M.recallScore = 0 ∧
        M.f1Score = 0 := by
  have hne : evalLoop (1/2)
      [("img", ⟨10, 10, [⟨"D00", ⟨0, 0, 10, 10⟩⟩]⟩)] [] ≠ [] := by
    with_unfolding_all decide
  obtain ⟨M, hM, hc, -, -, hp, hr, hf⟩ :=
    claim_C5 (1/2) [("img", ⟨10, 10, [⟨"D00", ⟨0, 0, 10, 10⟩⟩]⟩)] [] hne
  refine ⟨hne, M, hM, hc, ?_, ?_, ?_⟩
  · rw [hp]; with_unfolding_all decide
  · rw [hr]; with_unfolding_all decide
  · rw [hf]; with_unfolding_all decide

end EvalMetrics
